import Mathlib

/-!
Verification development for the `nq-momentum-scalper` repository.

Shallow embedding of the two source files:
  * `src/strategy.py` — the `OpeningMomentumStrategy` bar-by-bar state machine
    (daily reset, risk governor / daily loss halt, first-bar entry,
    extreme-price tracking, trailing-stop and volume-spike reversals,
    forced market-close flatten);
  * `src/Monte_Carlo_Analysis/monte_carlo.py` — the daily PnL aggregation over
    closed trades and the bootstrap Monte Carlo trial loop (equity path,
    running peak, maximum drawdown).

Prices, PnL and indicator values are embedded as rationals (the Python code
uses IEEE floats; the properties proved here are the exact-arithmetic ones the
specification states).  The broker is modelled with immediate fills at the
current bar close: `buy`/`sell`/`close` take effect on the bar that issues
them, and realized PnL is accumulated at the moment a position is closed
(source: `notify_trade` credits `trade.pnlcomm` when the broker reports the
close; per-trade commission is a broker-side adjustment outside the core and
is not modelled).  Timestamps are embedded as a trading-day key (`day`) plus
minutes since midnight (`time`): 09:30 = 570, 09:35 = 575, 15:45 = 945.
-/

/-- One OHLCV bar.  Field names follow the strategy's data aliases
(`self.dataopen`, `self.datahigh`, `self.datalow`, `self.dataclose`,
`self.volume`); `day`/`time` embed `dt.date()` and `dt.time()`. -/
structure Bar where
  day : ℕ
  time : ℕ
  dataopen : ℚ
  datahigh : ℚ
  datalow : ℚ
  dataclose : ℚ
  datavolume : ℚ
  deriving DecidableEq

/-- Strategy parameters (source: the `params` tuple of
`OpeningMomentumStrategy`; `debug` only gates logging and is omitted). -/
structure Params where
  daily_loss_limit : ℚ
  fixed_size : ℤ
  trail_atr : ℚ
  vol_multiplier : ℚ
  multiplier : ℚ
  deriving DecidableEq

/-- Default parameter values from the source's `params` tuple. -/
def defaultParams : Params :=
  { daily_loss_limit := 200, fixed_size := 1, trail_atr := 3,
    vol_multiplier := 3, multiplier := 2 }

/-- Mutable strategy state (source: fields set in `__init__` plus the broker
position the strategy reads through `self.position`).  `position_size` is the
broker's signed position size, `position_price` its entry price;
`highest_high`/`lowest_low` are the extreme trackers (Python initialises them
to `None`; they are only ever read while a position is open, which always
follows an entry or reversal that set them, so they are embedded as plain
rationals). -/
structure StratState where
  current_day : Option ℕ
  trading_halted : Bool
  daily_realized_pnl : ℚ
  position_size : ℤ
  position_price : ℚ
  highest_high : ℚ
  lowest_low : ℚ
  deriving DecidableEq

/-- Observable order events emitted by one `next` call. -/
inductive Act where
  | enterLong
  | enterShort
  | reverseToShort
  | reverseToLong
  | haltFlatten
  | closeFlatten
  deriving DecidableEq

/-- Source: `start_of_day_reset` — clears the realized-PnL accumulator and
un-halts.  (`start_day_value` is only used for logging and is omitted.) -/
def start_of_day_reset (s : StratState) (d : ℕ) : StratState :=
  { s with current_day := some d, daily_realized_pnl := 0, trading_halted := false }

/-- Source: `self.close()` — flattens the open position (if any); the broker
then reports the closed trade and `notify_trade` accumulates its PnL
`(close − entry) × multiplier × size` into `daily_realized_pnl`. -/
def closeAll (p : Params) (s : StratState) (b : Bar) : StratState :=
  if s.position_size ≠ 0 then
    { s with
        daily_realized_pnl := s.daily_realized_pnl
          + (b.dataclose - s.position_price) * p.multiplier * (s.position_size : ℚ),
        position_size := 0 }
  else s

/-- Source: `check_daily_loss_limit` — realized plus approximate unrealized
PnL (`diff = close − position.price`, negated when short, times multiplier
times `abs(size)`) compared against `−daily_loss_limit`; on breach it closes
all and sets `trading_halted`.  Returns `some` of the breached state (the
Python method returns `True` after mutating) or `none`. -/
def check_daily_loss_limit (p : Params) (s : StratState) (b : Bar) : Option StratState :=
  let diff0 := b.dataclose - s.position_price
  let diff := if s.position_size < 0 then -diff0 else diff0
  let unrealized := if s.position_size ≠ 0 then diff * p.multiplier * |(s.position_size : ℚ)| else 0
  let total := s.daily_realized_pnl + unrealized
  if total < -p.daily_loss_limit then
    some { closeAll p s b with trading_halted := true }
  else
    none

/-- Source: `reverse_position` — Long→Short: `close()` then `sell(fixed_size)`
and reset `lowest_low` to the bar's low; Short→Long symmetric with
`highest_high` reset to the bar's high; when flat the source's `else` branch
is `pass` (a silent no-op). -/
def reverse_position (p : Params) (s : StratState) (b : Bar) : StratState × List Act :=
  if 0 < s.position_size then
    ({ closeAll p s b with
        position_size := -p.fixed_size, position_price := b.dataclose,
        lowest_low := b.datalow }, [Act.reverseToShort])
  else if s.position_size < 0 then
    ({ closeAll p s b with
        position_size := p.fixed_size, position_price := b.dataclose,
        highest_high := b.datahigh }, [Act.reverseToLong])
  else
    (s, [])

/-- Source: `next`, step 0 — `if self.current_day != current_date:` reset. -/
def dayStep (s : StratState) (b : Bar) : StratState :=
  if s.current_day ≠ some b.day then start_of_day_reset s b.day else s

/-- Source: `market_close = datetime.time(15, 45)` in minutes. -/
def market_close : ℕ := 945

/-- Source: `first_bar_close` — market open 09:30 plus the 5-minute bar
width, i.e. 09:35, in minutes. -/
def first_bar_close : ℕ := 575

/-- Source: `next`, step 3 — first-bar entry: buy if `close > open`
(initialising `highest_high` to the bar high), else sell (initialising
`lowest_low` to the bar low); fills modelled at the bar close. -/
def enterFirstBar (p : Params) (s : StratState) (b : Bar) : StratState × List Act :=
  if b.dataclose > b.dataopen then
    ({ s with
        position_size := p.fixed_size, position_price := b.dataclose,
        highest_high := b.datahigh }, [Act.enterLong])
  else
    ({ s with
        position_size := -p.fixed_size, position_price := b.dataclose,
        lowest_low := b.datalow }, [Act.enterShort])

/-- Source: `next`, step 4, extreme update — `highest_high = max(highest_high,
high)` while long, `lowest_low = min(lowest_low, low)` while short. -/
def updateExtremes (s : StratState) (b : Bar) : StratState :=
  if 0 < s.position_size then { s with highest_high := max s.highest_high b.datahigh }
  else if s.position_size < 0 then { s with lowest_low := min s.lowest_low b.datalow }
  else s

/-- Source: `next`, step 4 (trade management) — update extremes, then the
trailing-stop checks (`close < highest_high − atr×trail_atr` when long,
`close > lowest_low + atr×trail_atr` when short), and only if neither fired
(`reversal_triggered`) the volume-spike checks
(`volume > vol_ma × vol_multiplier` and a counter-trend close versus the
previous bar's close). -/
def manage (p : Params) (s : StratState) (b : Bar) (prevClose atr vol_ma : ℚ) :
    StratState × List Act :=
  let s1 := updateExtremes s b
  let reversal_dist := atr * p.trail_atr
  if 0 < s1.position_size ∧ b.dataclose < s1.highest_high - reversal_dist then
    reverse_position p s1 b
  else if s1.position_size < 0 ∧ b.dataclose > s1.lowest_low + reversal_dist then
    reverse_position p s1 b
  else if b.datavolume > vol_ma * p.vol_multiplier then
    if 0 < s1.position_size ∧ b.dataclose < prevClose then
      reverse_position p s1 b
    else if s1.position_size < 0 ∧ b.dataclose > prevClose then
      reverse_position p s1 b
    else (s1, [])
  else (s1, [])

/-- Source: `OpeningMomentumStrategy.next` — one bar of the state machine:
day-boundary reset; halted early-return; daily-loss check; market-close
forced flatten; first-bar entry; in-position trade management.  `prevClose`
embeds `self.dataclose[-1]`, `atr` is `self.atr[0]` and `vol_ma` is
`self.vol_ma[0]`. -/
def next (p : Params) (s0 : StratState) (b : Bar) (prevClose atr vol_ma : ℚ) :
    StratState × List Act :=
  let s := dayStep s0 b
  if s.trading_halted then (s, [])
  else
    match check_daily_loss_limit p s b with
    | some s1 => (s1, [Act.haltFlatten])
    | none =>
      if market_close ≤ b.time then
        (if s.position_size ≠ 0 then (closeAll p s b, [Act.closeFlatten]) else (s, []))
      else if b.time = first_bar_close then
        (if s.position_size = 0 then enterFirstBar p s b else (s, []))
      else if s.position_size ≠ 0 then
        manage p s b prevClose atr vol_ma
      else (s, [])

/-- One bar of input to the strategy: the bar, the previous bar's close, and
the two indicator values, `none` while the indicator (ATR period 14 /
volume SMA period 20) is still warming up. -/
structure BarInput where
  bar : Bar
  prevClose : ℚ
  atr : Option ℚ
  vol_ma : Option ℚ
  deriving DecidableEq

/-- Modelled from the spec: the backtrader framework (an external
collaborator — it is not part of `src/`) only begins invoking
`Strategy.next` once every declared indicator has passed its minimum period;
during the ATR(14)/SMA(20) warm-up the strategy is never called, so
undefined indicator values are treated as "do not trade" and the bar leaves
the state untouched. -/
def nextGated (p : Params) (s : StratState) (x : BarInput) : StratState × List Act :=
  match x.atr, x.vol_ma with
  | some a, some v => next p s x.bar x.prevClose a v
  | _, _ => (s, [])

/-- Run the strategy over a list of bar inputs, collecting all emitted
actions in order. -/
def runBars (p : Params) (s : StratState) : List BarInput → StratState × List Act
  | [] => (s, [])
  | x :: rest =>
      let step := nextGated p s x
      let tail := runBars p step.1 rest
      (tail.1, step.2 ++ tail.2)

/-- Number of bars at which the halted flag transitions from false to true
during a run. -/
def haltTransitions (p : Params) (s : StratState) : List BarInput → ℕ
  | [] => 0
  | x :: rest =>
      let s' := (nextGated p s x).1
      (if s.trading_halted = false ∧ s'.trading_halted = true then 1 else 0)
        + haltTransitions p s' rest

/-- An action that opens a position from flat. -/
def isEntry : Act → Bool
  | Act.enterLong => true
  | Act.enterShort => true
  | _ => false

/-- An action that reverses an open position. -/
def isReversal : Act → Bool
  | Act.reverseToShort => true
  | Act.reverseToLong => true
  | _ => false

/-- Number of entry actions in an action list. -/
def entryCount (l : List Act) : ℕ := (l.filter isEntry).length

/-- Number of reversal actions in an action list. -/
def reversalCount (l : List Act) : ℕ := (l.filter isReversal).length

/-! ## Daily PnL aggregation (monte_carlo.py) -/

/-- A closed round-turn trade as the aggregation loop consumes it: the
calendar day of `trade.dtclose` and the commission-adjusted net PnL
`trade.pnlcomm`. -/
structure ClosedTrade where
  closeDay : ℕ
  pnlcomm : ℚ
  deriving DecidableEq

/-- Source: the body of the aggregation loop — `if date_key not in
daily_pnls: daily_pnls[date_key] = 0.0` then `daily_pnls[date_key] += pnl`.
A Python dict with insertion order is embedded as an association list: an
existing key is accumulated in place, a new key is appended at the end. -/
def updateKey (m : List (ℕ × ℚ)) (d : ℕ) (pnl : ℚ) : List (ℕ × ℚ) :=
  match m with
  | [] => [(d, pnl)]
  | (k, v) :: rest => if k = d then (k, v + pnl) :: rest else (k, v) :: updateKey rest d pnl

/-- Source: the `for trade in trade_list` aggregation loop building
`daily_pnls`. -/
def daily_pnls (trades : List ClosedTrade) : List (ℕ × ℚ) :=
  trades.foldl (fun m t => updateKey m t.closeDay t.pnlcomm) []

/-- Source: `pnl_sequence = list(daily_pnls.values())`. -/
def pnl_sequence (trades : List ClosedTrade) : List ℚ :=
  (daily_pnls trades).map Prod.snd

/-- Total accumulated value stored under day `d` (0 when the day has no
entry); since the keys of `daily_pnls` are distinct this is the day's
value. -/
def valueOf (m : List (ℕ × ℚ)) (d : ℕ) : ℚ :=
  ((m.filter (fun kv => kv.1 = d)).map Prod.snd).sum

/-- The first-seen (chronological) deduplication of a day-key list, relative
to a list of already-present keys: exactly the order in which the source's
`if date_key not in daily_pnls` check appends new day entries. -/
def newDays (ks : List ℕ) : List ℕ → List ℕ
  | [] => []
  | d :: rest => if d ∈ ks then newDays ks rest else d :: newDays (ks ++ [d]) rest

/-! ## Bootstrap Monte Carlo simulation (monte_carlo.py) -/

/-- Per-trial accumulator: the growing equity path (source list `equity`,
seeded with `STARTING_EQUITY`), the running peak and the running maximum
drawdown fraction. -/
structure TrialAcc where
  equity : List ℚ
  peak : ℚ
  drawdown : ℚ
  deriving DecidableEq

/-- Last element of a list with a default (source: `equity[-1]`; the equity
list is never empty, so the default is never consulted). -/
def lastOr (l : List ℚ) (d : ℚ) : ℚ := l.getLast?.getD d

/-- Source: the inner `for pnl in daily_seq` loop of one Monte Carlo trial —
`new_val = equity[-1] + pnl`, append, bump the peak when exceeded, drawdown
candidate `(peak − new_val) / peak`, keep the running maximum. -/
def mcRun : List ℚ → TrialAcc → TrialAcc
  | [], acc => acc
  | pnl :: rest, acc =>
      let new_val := lastOr acc.equity 0 + pnl
      let peak' := if new_val > acc.peak then new_val else acc.peak
      let dd := (peak' - new_val) / peak'
      let drawdown' := if dd > acc.drawdown then dd else acc.drawdown
      mcRun rest { equity := acc.equity ++ [new_val], peak := peak', drawdown := drawdown' }

/-- One Monte Carlo trial on an already-drawn daily sequence (source: the
trial body starting from `equity = [STARTING_EQUITY]`, `peak =
STARTING_EQUITY`, `drawdown = 0.0`). -/
def mcTrial (startingEquity : ℚ) (daily_seq : List ℚ) : TrialAcc :=
  mcRun daily_seq { equity := [startingEquity], peak := startingEquity, drawdown := 0 }

/-- Source: `random.choices(pnl_sequence, k=days)` — sampling with
replacement is embedded by an explicit list of drawn indices (each draw of
`random.choices` picks an index below `len(pnl_sequence)`); the values are
read off the sequence.  The random source itself is left abstract: every
theorem below holds for every possible index draw. -/
def drawSeq (pnlSeq : List ℚ) (sel : List ℕ) : List ℚ :=
  sel.map (fun i => pnlSeq.getD i 0)

/-- Source: the outer `for i in range(SIMULATIONS)` loop — one independent
trial per element of `draws` (the per-trial index draws); no state is shared
between trials. -/
def mcSimulate (startingEquity : ℚ) (pnlSeq : List ℚ) (draws : List (List ℕ)) :
    List TrialAcc :=
  draws.map (fun sel => mcTrial startingEquity (drawSeq pnlSeq sel))

/-- Successive partial sums starting after `last` (the tail of the equity
path written out explicitly; proof-side characterisation of `mcRun`'s
equity field). -/
def sumsFrom (last : ℚ) : List ℚ → List ℚ
  | [] => []
  | p :: rest => (last + p) :: sumsFrom (last + p) rest

/-- The per-step drawdown candidates of the trial loop written out
explicitly (proof-side characterisation of `mcRun`'s drawdown field). -/
def ddSteps (peak last : ℚ) : List ℚ → List ℚ
  | [] => []
  | p :: rest =>
      ((max peak (last + p) - (last + p)) / max peak (last + p))
        :: ddSteps (max peak (last + p)) (last + p) rest

/-- Final running peak of the trial loop (proof-side characterisation of
`mcRun`'s peak field). -/
def peakEnd (peak last : ℚ) : List ℚ → ℚ
  | [] => peak
  | p :: rest => peakEnd (max peak (last + p)) (last + p) rest

/-- Modelled from the spec: the per-point drawdowns `(running_peak − equity)
/ running_peak` along an equity path, the running peak seeded from the given
value. -/
def runningDDs (peak : ℚ) : List ℚ → List ℚ
  | [] => []
  | e :: rest => ((max peak e - e) / max peak e) :: runningDDs (max peak e) rest

/-- Modelled from the spec: `max((peak − equity)/peak)` over the whole
equity path, the running peak seeded at the path's first point. -/
def specMaxDrawdown : List ℚ → ℚ
  | [] => 0
  | e :: rest => ((runningDDs e (e :: rest)).foldl max 0)

/-! ## Concrete sample data used to instantiate the theorems -/

/-- A flat, un-halted state on day 1. -/
def sFlat : StratState :=
  { current_day := some 1, trading_halted := false, daily_realized_pnl := 0,
    position_size := 0, position_price := 0, highest_high := 0, lowest_low := 0 }

/-- A long state on day 1: 1 contract from 5005, extreme high 5010. -/
def sLong : StratState :=
  { sFlat with position_size := 1, position_price := 5005, highest_high := 5010 }

/-- A short state on day 1: 1 contract from 5005, extreme low 4995. -/
def sShort : StratState :=
  { sFlat with position_size := -1, position_price := 5005, lowest_low := 4995 }

/-- A halted flat state on day 1. -/
def sHalted : StratState :=
  { sFlat with trading_halted := true }

/-- The day-1 entry bar (close time 09:35), close 5005 above its open 5000. -/
def bar575 : Bar :=
  { day := 1, time := 575, dataopen := 5000, datahigh := 5010, datalow := 4995,
    dataclose := 5005, datavolume := 1000 }

/-- A mid-session day-1 bar far enough below the long extreme to fire the
trailing stop at ATR 2 and trail multiplier 3. -/
def barMid : Bar :=
  { day := 1, time := 600, dataopen := 5000, datahigh := 5002, datalow := 4980,
    dataclose := 4981, datavolume := 1000 }

/-- A mid-session day-1 bar with a volume spike and a close below the
previous close, but above the trailing-stop trigger. -/
def barVol : Bar :=
  { day := 1, time := 605, dataopen := 5006, datahigh := 5009, datalow := 5005,
    dataclose := 5007, datavolume := 4000 }

/-- A mid-session day-1 bar with a mirrored short-side volume spike: close
above the previous close, below the short trailing-stop trigger. -/
def barVolS : Bar :=
  { day := 1, time := 605, dataopen := 4994, datahigh := 4997, datalow := 4992,
    dataclose := 4996, datavolume := 4000 }

/-- A day-1 crash bar: from `sLong` the unrealized loss (−410 at multiplier
2) breaches the 200 daily loss limit. -/
def barLoss : Bar :=
  { day := 1, time := 620, dataopen := 5000, datahigh := 5000, datalow := 4800,
    dataclose := 4800, datavolume := 1000 }

/-- `barMid` packaged with previous close 5000, ATR 2, volume SMA 900. -/
def xMid : BarInput :=
  { bar := barMid, prevClose := 5000, atr := some 2, vol_ma := some 900 }

/-- `barMid` during indicator warm-up: the ATR is not yet available. -/
def xWarm : BarInput :=
  { bar := barMid, prevClose := 5000, atr := none, vol_ma := some 900 }

/-- The same mid-session bar occurring on day 2 (a day boundary). -/
def barDay2 : Bar :=
  { barMid with day := 2 }

/-! ## Field-preservation lemmas for the strategy helpers -/

theorem dayStep_current_day (s : StratState) (b : Bar) :
    (dayStep s b).current_day = some b.day := by
  unfold dayStep start_of_day_reset
  split
  · rfl
  · simp_all

theorem dayStep_of_same_day (s : StratState) (b : Bar) (h : s.current_day = some b.day) :
    dayStep s b = s := by
  unfold dayStep
  simp [h]

theorem closeAll_current_day (p : Params) (s : StratState) (b : Bar) :
    (closeAll p s b).current_day = s.current_day := by
  unfold closeAll; split <;> rfl

theorem closeAll_trading_halted (p : Params) (s : StratState) (b : Bar) :
    (closeAll p s b).trading_halted = s.trading_halted := by
  unfold closeAll; split <;> rfl

theorem closeAll_position_size (p : Params) (s : StratState) (b : Bar) :
    (closeAll p s b).position_size = 0 := by
  unfold closeAll; split
  · rfl
  · simp_all

theorem check_some (p : Params) (s : StratState) (b : Bar) (s1 : StratState)
    (h : check_daily_loss_limit p s b = some s1) :
    s1.trading_halted = true ∧ s1.position_size = 0 ∧ s1.current_day = s.current_day := by
  simp only [check_daily_loss_limit] at h
  repeat' split at h
  all_goals cases h
  all_goals exact ⟨rfl, closeAll_position_size p s b, closeAll_current_day p s b⟩

theorem updateExtremes_position_size (s : StratState) (b : Bar) :
    (updateExtremes s b).position_size = s.position_size := by
  unfold updateExtremes
  split
  · rfl
  · split <;> rfl

theorem updateExtremes_current_day (s : StratState) (b : Bar) :
    (updateExtremes s b).current_day = s.current_day := by
  unfold updateExtremes
  split
  · rfl
  · split <;> rfl

theorem updateExtremes_trading_halted (s : StratState) (b : Bar) :
    (updateExtremes s b).trading_halted = s.trading_halted := by
  unfold updateExtremes
  split
  · rfl
  · split <;> rfl

theorem reverse_position_current_day (p : Params) (s : StratState) (b : Bar) :
    (reverse_position p s b).1.current_day = s.current_day := by
  unfold reverse_position
  split
  · exact closeAll_current_day p s b
  · split
    · exact closeAll_current_day p s b
    · rfl

theorem reverse_position_trading_halted (p : Params) (s : StratState) (b : Bar) :
    (reverse_position p s b).1.trading_halted = s.trading_halted := by
  unfold reverse_position
  split
  · exact closeAll_trading_halted p s b
  · split
    · exact closeAll_trading_halted p s b
    · rfl

theorem reverse_position_acts (p : Params) (s : StratState) (b : Bar) :
    ∀ act ∈ (reverse_position p s b).2, isReversal act = true := by
  unfold reverse_position
  split
  · intro act hact; simp_all [isReversal]
  · split
    · intro act hact; simp_all [isReversal]
    · intro act hact; simp_all

theorem reverse_position_acts_len (p : Params) (s : StratState) (b : Bar) :
    (reverse_position p s b).2.length ≤ 1 := by
  unfold reverse_position
  split
  · simp
  · split <;> simp

theorem manage_current_day (p : Params) (s : StratState) (b : Bar) (pc a v : ℚ) :
    (manage p s b pc a v).1.current_day = s.current_day := by
  unfold manage
  dsimp only
  have h := updateExtremes_current_day s b
  split
  · rw [reverse_position_current_day]; exact h
  · split
    · rw [reverse_position_current_day]; exact h
    · split
      · split
        · rw [reverse_position_current_day]; exact h
        · split
          · rw [reverse_position_current_day]; exact h
          · exact h
      · exact h

theorem manage_trading_halted (p : Params) (s : StratState) (b : Bar) (pc a v : ℚ) :
    (manage p s b pc a v).1.trading_halted = s.trading_halted := by
  unfold manage
  dsimp only
  have h := updateExtremes_trading_halted s b
  split
  · rw [reverse_position_trading_halted]; exact h
  · split
    · rw [reverse_position_trading_halted]; exact h
    · split
      · split
        · rw [reverse_position_trading_halted]; exact h
        · split
          · rw [reverse_position_trading_halted]; exact h
          · exact h
      · exact h

theorem manage_acts (p : Params) (s : StratState) (b : Bar) (pc a v : ℚ) :
    ∀ act ∈ (manage p s b pc a v).2, isReversal act = true := by
  unfold manage
  dsimp only
  split
  · exact reverse_position_acts p _ b
  · split
    · exact reverse_position_acts p _ b
    · split
      · split
        · exact reverse_position_acts p _ b
        · split
          · exact reverse_position_acts p _ b
          · intro act hact; simp_all
      · intro act hact; simp_all

theorem manage_acts_len (p : Params) (s : StratState) (b : Bar) (pc a v : ℚ) :
    (manage p s b pc a v).2.length ≤ 1 := by
  unfold manage
  dsimp only
  split
  · exact reverse_position_acts_len p _ b
  · split
    · exact reverse_position_acts_len p _ b
    · split
      · split
        · exact reverse_position_acts_len p _ b
        · split
          · exact reverse_position_acts_len p _ b
          · simp
      · simp

theorem enterFirstBar_current_day (p : Params) (s : StratState) (b : Bar) :
    (enterFirstBar p s b).1.current_day = s.current_day := by
  unfold enterFirstBar; split <;> rfl

theorem enterFirstBar_trading_halted (p : Params) (s : StratState) (b : Bar) :
    (enterFirstBar p s b).1.trading_halted = s.trading_halted := by
  unfold enterFirstBar; split <;> rfl

theorem enterFirstBar_acts_len (p : Params) (s : StratState) (b : Bar) :
    (enterFirstBar p s b).2.length ≤ 1 := by
  unfold enterFirstBar; split <;> simp

/-! ## Lemmas on one `next` step -/

theorem next_halted (p : Params) (s : StratState) (b : Bar) (pc a v : ℚ)
    (hd : s.current_day = some b.day) (hh : s.trading_halted = true) :
    next p s b pc a v = (s, []) := by
  simp only [next, dayStep_of_same_day s b hd, hh]
  simp

theorem next_current_day (p : Params) (s0 : StratState) (b : Bar) (pc a v : ℚ) :
    (next p s0 b pc a v).1.current_day = some b.day := by
  simp only [next]
  have hd : (dayStep s0 b).current_day = some b.day := dayStep_current_day s0 b
  split
  · exact hd
  · rcases hC : check_daily_loss_limit p (dayStep s0 b) b with _ | s1 <;> simp only [hC]
    · split
      · split
        · simpa [closeAll_current_day] using hd
        · exact hd
      · split
        · split
          · simpa [enterFirstBar_current_day] using hd
          · exact hd
        · split
          · simpa [manage_current_day] using hd
          · exact hd
    · have h := check_some p (dayStep s0 b) b s1 hC
      simpa [h.2.2] using hd

theorem next_halt_clear (p : Params) (s : StratState) (b : Bar) (pc a v : ℚ)
    (hh : s.trading_halted = true)
    (hres : (next p s b pc a v).1.trading_halted = false) :
    s.current_day ≠ some b.day := by
  intro hday
  rw [next_halted p s b pc a v hday hh] at hres
  rw [hh] at hres
  cases hres

theorem next_acts_len (p : Params) (s0 : StratState) (b : Bar) (pc a v : ℚ) :
    (next p s0 b pc a v).2.length ≤ 1 := by
  simp only [next]
  split
  · simp
  · rcases hC : check_daily_loss_limit p (dayStep s0 b) b with _ | s1 <;> simp only [hC]
    · split
      · split <;> simp
      · split
        · split
          · exact enterFirstBar_acts_len p _ b
          · simp
        · split
          · exact manage_acts_len p _ b pc a v
          · simp
    · simp

theorem entry_not_reversal (act : Act) (h : isReversal act = true) : isEntry act = false := by
  cases act <;> simp_all [isEntry, isReversal]

theorem next_entry_time (p : Params) (s0 : StratState) (b : Bar) (pc a v : ℚ) :
    ∀ act ∈ (next p s0 b pc a v).2, isEntry act = true → b.time = first_bar_close := by
  simp only [next]
  split
  · simp
  · rcases hC : check_daily_loss_limit p (dayStep s0 b) b with _ | s1 <;> simp only [hC]
    · split
      · split
        · intro act hact hent
          simp only [List.mem_singleton] at hact
          subst hact
          cases hent
        · simp
      · split
        case isTrue ht =>
          intro act hact hent
          exact ht
        case isFalse ht =>
          split
          · intro act hact hent
            have hrev := manage_acts p _ b pc a v act hact
            rw [entry_not_reversal act hrev] at hent
            cases hent
          · simp
    · intro act hact hent
      simp only [List.mem_singleton] at hact
      subst hact
      cases hent

theorem next_flat_entry_time (p : Params) (s0 : StratState) (b : Bar) (pc a v : ℚ)
    (hflat : (dayStep s0 b).position_size = 0)
    (hpos : (next p s0 b pc a v).1.position_size ≠ 0) :
    b.time = first_bar_close := by
  revert hpos
  simp only [next]
  split
  · intro hpos; exact absurd hflat hpos
  · rcases hC : check_daily_loss_limit p (dayStep s0 b) b with _ | s1 <;> simp only [hC]
    · split
      · split
        · intro hpos; exact absurd (closeAll_position_size p _ b) hpos
        · intro hpos; exact absurd hflat hpos
      · split
        case isTrue ht => intro _; exact ht
        case isFalse ht =>
          split
          case isTrue hne => intro _; exact absurd hflat hne
          case isFalse hne => intro hpos; exact absurd hflat hpos
    · intro hpos
      exact absurd (check_some p _ b s1 hC).2.1 hpos

/-! ## Lemmas on the gated step and on runs -/

theorem nextGated_halted (p : Params) (s : StratState) (x : BarInput)
    (hd : s.current_day = some x.bar.day) (hh : s.trading_halted = true) :
    nextGated p s x = (s, []) := by
  unfold nextGated
  rcases x.atr with _ | a
  · rfl
  · rcases x.vol_ma with _ | v
    · rfl
    · exact next_halted p s x.bar x.prevClose a v hd hh

theorem nextGated_current_day (p : Params) (s : StratState) (x : BarInput) (d : ℕ)
    (hd : s.current_day = some d) (hday : x.bar.day = d) :
    (nextGated p s x).1.current_day = some d := by
  unfold nextGated
  rcases x.atr with _ | a
  · exact hd
  · rcases x.vol_ma with _ | v
    · exact hd
    · rw [next_current_day, hday]

theorem nextGated_acts_len (p : Params) (s : StratState) (x : BarInput) :
    (nextGated p s x).2.length ≤ 1 := by
  unfold nextGated
  rcases x.atr with _ | a
  · simp
  · rcases x.vol_ma with _ | v
    · simp
    · exact next_acts_len p s x.bar x.prevClose a v

theorem nextGated_entry_time (p : Params) (s : StratState) (x : BarInput) :
    ∀ act ∈ (nextGated p s x).2, isEntry act = true → x.bar.time = first_bar_close := by
  unfold nextGated
  rcases x.atr with _ | a
  · simp
  · rcases x.vol_ma with _ | v
    · simp
    · exact next_entry_time p s x.bar x.prevClose a v

theorem runBars_halted (p : Params) (s : StratState) (l : List BarInput) (d : ℕ)
    (hh : s.trading_halted = true) (hd : s.current_day = some d)
    (hl : ∀ x ∈ l, x.bar.day = d) : runBars p s l = (s, []) := by
  induction l with
  | nil => rfl
  | cons x rest ih =>
    have hday : x.bar.day = d := hl x (List.mem_cons_self x rest)
    have hstep : nextGated p s x = (s, []) := by
      apply nextGated_halted p s x _ hh
      rw [hd, hday]
    simp only [runBars, hstep]
    have htail := ih (fun y hy => hl y (List.mem_cons_of_mem x hy))
    simp [htail]

theorem haltTransitions_halted (p : Params) (s : StratState) (l : List BarInput) (d : ℕ)
    (hh : s.trading_halted = true) (hd : s.current_day = some d)
    (hl : ∀ x ∈ l, x.bar.day = d) : haltTransitions p s l = 0 := by
  induction l with
  | nil => rfl
  | cons x rest ih =>
    have hday : x.bar.day = d := hl x (List.mem_cons_self x rest)
    have hstep : nextGated p s x = (s, []) := by
      apply nextGated_halted p s x _ hh
      rw [hd, hday]
    simp only [haltTransitions, hstep, hh]
    have htail := ih (fun y hy => hl y (List.mem_cons_of_mem x hy))
    simp [htail]

theorem haltTransitions_le_one (p : Params) (s : StratState) (l : List BarInput) (d : ℕ)
    (hd : s.current_day = some d) (hl : ∀ x ∈ l, x.bar.day = d) :
    haltTransitions p s l ≤ 1 := by
  induction l generalizing s with
  | nil => simp [haltTransitions]
  | cons x rest ih =>
    have hday : x.bar.day = d := hl x (List.mem_cons_self x rest)
    have hrest : ∀ y ∈ rest, y.bar.day = d := fun y hy => hl y (List.mem_cons_of_mem x hy)
    by_cases hh : s.trading_halted = true
    · rw [haltTransitions_halted p s (x :: rest) d hh hd hl]
      omega
    · simp only [haltTransitions]
      have hd' : (nextGated p s x).1.current_day = some d :=
        nextGated_current_day p s x d hd hday
      by_cases hh' : (nextGated p s x).1.trading_halted = true
      · rw [haltTransitions_halted p (nextGated p s x).1 rest d hh' hd' hrest]
        split <;> omega
      · have htail := ih (nextGated p s x).1 hd' hrest
        simp only [Bool.not_eq_true] at hh'
        simp [hh', htail]

/-! ## Lemmas on the Monte Carlo trial loop -/

theorem if_gt_eq_max (a b : ℚ) : (if a > b then a else b) = max b a := by
  rcases le_or_lt a b with h | h
  · rw [if_neg (not_lt.mpr h), max_eq_left h]
  · rw [if_pos h, max_eq_right h.le]

theorem lastOr_concat (l : List ℚ) (x d : ℚ) : lastOr (l ++ [x]) d = x := by
  simp [lastOr, List.getLast?_concat]

theorem mcRun_eq (seq : List ℚ) : ∀ acc : TrialAcc, acc.equity ≠ [] →
    mcRun seq acc =
      { equity := acc.equity ++ sumsFrom (lastOr acc.equity 0) seq,
        peak := peakEnd acc.peak (lastOr acc.equity 0) seq,
        drawdown := (ddSteps acc.peak (lastOr acc.equity 0) seq).foldl max acc.drawdown } := by
  induction seq with
  | nil => intro acc _; simp [mcRun, sumsFrom, peakEnd, ddSteps]
  | cons pnl rest ih =>
    intro acc hne
    simp only [mcRun]
    rw [ih _ (by simp)]
    rw [lastOr_concat]
    simp only [sumsFrom, peakEnd, ddSteps, List.foldl_cons]
    rw [if_gt_eq_max, if_gt_eq_max]
    rw [max_comm acc.drawdown _]
    simp [List.append_assoc]

theorem mcTrial_eq (st : ℚ) (seq : List ℚ) :
    mcTrial st seq =
      { equity := st :: sumsFrom st seq,
        peak := peakEnd st st seq,
        drawdown := (ddSteps st st seq).foldl max 0 } := by
  have h := mcRun_eq seq { equity := [st], peak := st, drawdown := 0 } (by simp)
  simpa [mcTrial, lastOr] using h

theorem sumsFrom_length (seq : List ℚ) : ∀ l : ℚ, (sumsFrom l seq).length = seq.length := by
  induction seq with
  | nil => intro l; rfl
  | cons p rest ih => intro l; simp [sumsFrom, ih]

theorem lastOr_cons_cons (a b : ℚ) (t : List ℚ) (d : ℚ) :
    lastOr (a :: b :: t) d = lastOr (b :: t) d := by
  simp [lastOr, List.getLast?_cons_cons]

theorem lastOr_cons_sumsFrom (seq : List ℚ) : ∀ l : ℚ,
    lastOr (l :: sumsFrom l seq) 0 = l + seq.sum := by
  induction seq with
  | nil => intro l; simp [sumsFrom, lastOr]
  | cons p rest ih =>
    intro l
    simp only [sumsFrom]
    rw [lastOr_cons_cons, ih (l + p), List.sum_cons]
    ring

theorem le_foldl_max (l : List ℚ) : ∀ a : ℚ, a ≤ l.foldl max a := by
  induction l with
  | nil => intro a; simp
  | cons x rest ih =>
    intro a
    rw [List.foldl_cons]
    exact le_trans (le_max_left a x) (ih (max a x))

theorem foldl_max_of_le (l : List ℚ) : ∀ a : ℚ, (∀ x ∈ l, x ≤ a) → l.foldl max a = a := by
  induction l with
  | nil => intro a _; rfl
  | cons x rest ih =>
    intro a h
    rw [List.foldl_cons, max_eq_left (h x (List.mem_cons_self x rest))]
    exact ih a fun y hy => h y (List.mem_cons_of_mem x hy)

theorem ddSteps_all_zero (seq : List ℚ) : ∀ pk last : ℚ, pk ≤ last →
    (∀ x ∈ seq, 0 ≤ x) → ∀ y ∈ ddSteps pk last seq, y = 0 := by
  induction seq with
  | nil => intro pk last _ _ y hy; cases hy
  | cons p rest ih =>
    intro pk last hpl hpos y hy
    have hp : 0 ≤ p := hpos p (List.mem_cons_self p rest)
    have hle : pk ≤ last + p := le_trans hpl (by linarith)
    have hmax : max pk (last + p) = last + p := max_eq_right hle
    simp only [ddSteps, hmax] at hy
    rcases List.mem_cons.mp hy with h | h
    · rw [h]; simp
    · exact ih (last + p) (last + p) le_rfl
        (fun x hx => hpos x (List.mem_cons_of_mem p hx)) y h

theorem chain_sumsFrom_nonneg (seq : List ℚ) : ∀ l : ℚ,
    List.Chain' (fun x y => x ≤ y) (l :: sumsFrom l seq) → ∀ x ∈ seq, 0 ≤ x := by
  induction seq with
  | nil => intro l _ x hx; cases hx
  | cons p rest ih =>
    intro l hch x hx
    simp only [sumsFrom] at hch
    rw [List.chain'_cons] at hch
    rcases hch with ⟨hle, hch⟩
    rcases List.mem_cons.mp hx with h | h
    · subst h; linarith
    · exact ih (l + p) hch x h

theorem runningDDs_sumsFrom (seq : List ℚ) : ∀ pk last : ℚ,
    runningDDs pk (sumsFrom last seq) = ddSteps pk last seq := by
  induction seq with
  | nil => intro pk last; rfl
  | cons p rest ih =>
    intro pk last
    simp only [sumsFrom, runningDDs, ddSteps]
    rw [ih]

theorem specMaxDrawdown_path (st : ℚ) (seq : List ℚ) :
    specMaxDrawdown (st :: sumsFrom st seq) = (ddSteps st st seq).foldl max 0 := by
  simp only [specMaxDrawdown, runningDDs, max_self, sub_self, zero_div]
  rw [runningDDs_sumsFrom, List.foldl_cons, max_self]

theorem getD_mem (l : List ℚ) : ∀ i : ℕ, i < l.length → l.getD i 0 ∈ l := by
  induction l with
  | nil => intro i h; simp at h
  | cons a t ih =>
    intro i h
    cases i with
    | zero => rw [List.getD_cons_zero]; exact List.mem_cons_self a t
    | succ j =>
      rw [List.getD_cons_succ]
      refine List.mem_cons_of_mem a (ih j ?_)
      simpa [Nat.succ_lt_succ_iff] using h

theorem drawSeq_mem (pnlSeq : List ℚ) (sel : List ℕ)
    (hsel : ∀ i ∈ sel, i < pnlSeq.length) :
    ∀ x ∈ drawSeq pnlSeq sel, x ∈ pnlSeq := by
  intro x hx
  rcases List.mem_map.mp hx with ⟨i, hi, rfl⟩
  exact getD_mem pnlSeq i (hsel i hi)

/-! ## Lemmas on the daily PnL aggregation -/

theorem valueOf_cons (k : ℕ) (v : ℚ) (m : List (ℕ × ℚ)) (d : ℕ) :
    valueOf ((k, v) :: m) d = (if k = d then v else 0) + valueOf m d := by
  by_cases h : k = d <;> simp [valueOf, List.filter_cons, h]

theorem updateKey_valueOf (d d' : ℕ) (pnl : ℚ) (m : List (ℕ × ℚ)) :
    valueOf (updateKey m d pnl) d' = valueOf m d' + (if d = d' then pnl else 0) := by
  induction m with
  | nil =>
    simp only [updateKey, valueOf, List.filter_nil]
    by_cases h : d = d' <;> simp [List.filter_cons, h]
  | cons kv rest ih =>
    obtain ⟨k, v⟩ := kv
    simp only [updateKey]
    by_cases hk : k = d
    · subst hk
      rw [if_pos rfl, valueOf_cons, valueOf_cons]
      by_cases hd : k = d' <;> simp [hd] <;> ring
    · rw [if_neg hk, valueOf_cons, valueOf_cons, ih]
      ring

theorem foldl_valueOf (d : ℕ) (trades : List ClosedTrade) : ∀ m : List (ℕ × ℚ),
    valueOf (trades.foldl (fun acc t => updateKey acc t.closeDay t.pnlcomm) m) d =
      valueOf m d + ((trades.filter (fun t => t.closeDay = d)).map ClosedTrade.pnlcomm).sum := by
  induction trades with
  | nil => intro m; simp
  | cons t rest ih =>
    intro m
    rw [List.foldl_cons, ih, updateKey_valueOf]
    by_cases h : t.closeDay = d <;> simp [List.filter_cons, h] <;> ring

theorem updateKey_keys (d : ℕ) (pnl : ℚ) (m : List (ℕ × ℚ)) :
    (updateKey m d pnl).map Prod.fst =
      if d ∈ m.map Prod.fst then m.map Prod.fst else m.map Prod.fst ++ [d] := by
  induction m with
  | nil => simp [updateKey]
  | cons kv rest ih =>
    obtain ⟨k, v⟩ := kv
    simp only [updateKey]
    by_cases hk : k = d
    · subst hk
      simp
    · rw [if_neg hk]
      simp only [List.map_cons, ih]
      have hne : ¬ d = k := fun h => hk h.symm
      by_cases hmem : d ∈ rest.map Prod.fst
      · simp [List.mem_cons, hmem, hne]
      · simp [List.mem_cons, hmem, hne]

theorem foldl_keys : ∀ (trades : List ClosedTrade) (m : List (ℕ × ℚ)),
    ((trades.foldl (fun acc t => updateKey acc t.closeDay t.pnlcomm) m)).map Prod.fst =
      m.map Prod.fst ++ newDays (m.map Prod.fst) (trades.map ClosedTrade.closeDay) := by
  intro trades
  induction trades with
  | nil => intro m; simp [newDays]
  | cons t rest ih =>
    intro m
    rw [List.foldl_cons, ih, List.map_cons]
    simp only [newDays]
    rw [updateKey_keys]
    by_cases hmem : t.closeDay ∈ m.map Prod.fst
    · rw [if_pos hmem, if_pos hmem]
    · rw [if_neg hmem, if_neg hmem, List.append_assoc, List.singleton_append]

/-! ## Characterisation of the trade-management branch -/

theorem updateExtremes_long (s : StratState) (b : Bar) (hpos : 0 < s.position_size) :
    updateExtremes s b = { s with highest_high := max s.highest_high b.datahigh } := by
  unfold updateExtremes; rw [if_pos hpos]

theorem updateExtremes_short (s : StratState) (b : Bar) (hpos : s.position_size < 0) :
    updateExtremes s b = { s with lowest_low := min s.lowest_low b.datalow } := by
  unfold updateExtremes
  rw [if_neg (by omega : ¬ 0 < s.position_size), if_pos hpos]

theorem reverse_position_long (p : Params) (s : StratState) (b : Bar)
    (hpos : 0 < s.position_size) :
    reverse_position p s b =
      ({ s with
          daily_realized_pnl := s.daily_realized_pnl
            + (b.dataclose - s.position_price) * p.multiplier * (s.position_size : ℚ),
          position_size := -p.fixed_size, position_price := b.dataclose,
          lowest_low := b.datalow }, [Act.reverseToShort]) := by
  simp only [reverse_position, closeAll]
  rw [if_pos hpos, if_pos (by omega : s.position_size ≠ 0)]

theorem reverse_position_short (p : Params) (s : StratState) (b : Bar)
    (hpos : s.position_size < 0) :
    reverse_position p s b =
      ({ s with
          daily_realized_pnl := s.daily_realized_pnl
            + (b.dataclose - s.position_price) * p.multiplier * (s.position_size : ℚ),
          position_size := p.fixed_size, position_price := b.dataclose,
          highest_high := b.datahigh }, [Act.reverseToLong]) := by
  simp only [reverse_position, closeAll]
  rw [if_neg (by omega : ¬ 0 < s.position_size), if_pos hpos,
    if_pos (by omega : s.position_size ≠ 0)]

theorem manage_long_trail (p : Params) (s : StratState) (b : Bar) (pc a v : ℚ)
    (hpos : 0 < s.position_size)
    (htr : b.dataclose < max s.highest_high b.datahigh - a * p.trail_atr) :
    manage p s b pc a v =
      reverse_position p { s with highest_high := max s.highest_high b.datahigh } b := by
  simp only [manage, updateExtremes_long s b hpos]
  rw [if_pos ⟨hpos, htr⟩]

theorem manage_short_trail (p : Params) (s : StratState) (b : Bar) (pc a v : ℚ)
    (hpos : s.position_size < 0)
    (htr : b.dataclose > min s.lowest_low b.datalow + a * p.trail_atr) :
    manage p s b pc a v =
      reverse_position p { s with lowest_low := min s.lowest_low b.datalow } b := by
  simp only [manage, updateExtremes_short s b hpos]
  rw [if_neg (fun h => absurd h.1 (by omega)), if_pos ⟨hpos, htr⟩]

theorem manage_long_vol (p : Params) (s : StratState) (b : Bar) (pc a v : ℚ)
    (hpos : 0 < s.position_size)
    (htr : ¬ b.dataclose < max s.highest_high b.datahigh - a * p.trail_atr)
    (hspike : b.datavolume > v * p.vol_multiplier) (hctr : b.dataclose < pc) :
    manage p s b pc a v =
      reverse_position p { s with highest_high := max s.highest_high b.datahigh } b := by
  simp only [manage, updateExtremes_long s b hpos]
  rw [if_neg (fun h => htr h.2), if_neg (fun h => absurd h.1 (by omega)),
    if_pos hspike, if_pos ⟨hpos, hctr⟩]

theorem manage_short_vol (p : Params) (s : StratState) (b : Bar) (pc a v : ℚ)
    (hpos : s.position_size < 0)
    (htr : ¬ b.dataclose > min s.lowest_low b.datalow + a * p.trail_atr)
    (hspike : b.datavolume > v * p.vol_multiplier) (hctr : b.dataclose > pc) :
    manage p s b pc a v =
      reverse_position p { s with lowest_low := min s.lowest_low b.datalow } b := by
  simp only [manage, updateExtremes_short s b hpos]
  rw [if_neg (fun h => absurd h.1 (by omega)), if_neg (fun h => htr h.2),
    if_pos hspike, if_neg (fun h => absurd h.1 (by omega)), if_pos ⟨hpos, hctr⟩]

theorem manage_long_none (p : Params) (s : StratState) (b : Bar) (pc a v : ℚ)
    (hpos : 0 < s.position_size)
    (htr : ¬ b.dataclose < max s.highest_high b.datahigh - a * p.trail_atr)
    (hn : ¬(b.datavolume > v * p.vol_multiplier ∧ b.dataclose < pc)) :
    manage p s b pc a v = ({ s with highest_high := max s.highest_high b.datahigh }, []) := by
  simp only [manage, updateExtremes_long s b hpos]
  rw [if_neg (fun h => htr h.2), if_neg (fun h => absurd h.1 (by omega))]
  by_cases hspike : b.datavolume > v * p.vol_multiplier
  · rw [if_pos hspike, if_neg (fun h => hn ⟨hspike, h.2⟩),
      if_neg (fun h => absurd h.1 (by omega))]
  · rw [if_neg hspike]

theorem manage_short_none (p : Params) (s : StratState) (b : Bar) (pc a v : ℚ)
    (hpos : s.position_size < 0)
    (htr : ¬ b.dataclose > min s.lowest_low b.datalow + a * p.trail_atr)
    (hn : ¬(b.datavolume > v * p.vol_multiplier ∧ b.dataclose > pc)) :
    manage p s b pc a v = ({ s with lowest_low := min s.lowest_low b.datalow }, []) := by
  simp only [manage, updateExtremes_short s b hpos]
  rw [if_neg (fun h => absurd h.1 (by omega)), if_neg (fun h => htr h.2)]
  by_cases hspike : b.datavolume > v * p.vol_multiplier
  · rw [if_pos hspike, if_neg (fun h => absurd h.1 (by omega)),
      if_neg (fun h => hn ⟨hspike, h.2⟩)]
  · rw [if_neg hspike]

theorem next_manage (p : Params) (s : StratState) (b : Bar) (pc a v : ℚ)
    (hday : s.current_day = some b.day) (hh : s.trading_halted = false)
    (hC : check_daily_loss_limit p s b = none)
    (hlt : b.time < market_close) (hne : b.time ≠ first_bar_close)
    (hpos : s.position_size ≠ 0) :
    next p s b pc a v = manage p s b pc a v := by
  have h1 : ¬ market_close ≤ b.time := Nat.not_le.mpr hlt
  simp only [next, dayStep_of_same_day s b hday, hh, hC, h1, hne, hpos]
  simp
  exact fun h => absurd h hpos

/-! ## Entry conditions -/

theorem next_entry_conditions (p : Params) (s0 : StratState) (b : Bar) (pc a v : ℚ) :
    ∀ act ∈ (next p s0 b pc a v).2, isEntry act = true →
      b.time = first_bar_close ∧ (dayStep s0 b).trading_halted = false ∧
      (dayStep s0 b).position_size = 0 ∧
      check_daily_loss_limit p (dayStep s0 b) b = none := by
  simp only [next]
  split
  case isTrue hh => simp
  case isFalse hh =>
    simp only [Bool.not_eq_true] at hh
    rcases hC : check_daily_loss_limit p (dayStep s0 b) b with _ | s1 <;> simp only [hC]
    · split
      · split
        · intro act hact hent
          simp only [List.mem_singleton] at hact
          subst hact
          cases hent
        · simp
      · split
        case isTrue ht =>
          split
          case isTrue hflat => intro act _ _; exact ⟨ht, hh, hflat, trivial⟩
          case isFalse hflat => simp
        case isFalse ht =>
          split
          · intro act hact hent
            have hrev := manage_acts p _ b pc a v act hact
            rw [entry_not_reversal act hrev] at hent
            cases hent
          · simp
    · intro act hact hent
      simp only [List.mem_singleton] at hact
      subst hact
      cases hent

theorem next_entry_branch (p : Params) (s : StratState) (b : Bar) (pc a v : ℚ)
    (hday : s.current_day = some b.day) (hh : s.trading_halted = false)
    (hC : check_daily_loss_limit p s b = none)
    (ht : b.time = first_bar_close) (hflat : s.position_size = 0) :
    next p s b pc a v = enterFirstBar p s b := by
  have hmc : ¬ market_close ≤ b.time := by rw [ht]; decide
  simp only [next, dayStep_of_same_day s b hday, hh, hC, hmc, ht, hflat]
  simp
  exact fun hle => absurd hle (by decide)

/-! ## Entry counting over runs -/

theorem entryCount_append (l1 l2 : List Act) :
    entryCount (l1 ++ l2) = entryCount l1 + entryCount l2 := by
  simp [entryCount, List.filter_append]

theorem entryCount_le_len (l : List Act) : entryCount l ≤ l.length :=
  List.length_filter_le _ _

theorem entryCount_zero_of_time (p : Params) (s : StratState) (x : BarInput)
    (ht : x.bar.time ≠ first_bar_close) : entryCount (nextGated p s x).2 = 0 := by
  unfold entryCount
  rw [List.length_eq_zero, List.filter_eq_nil]
  intro act hact
  intro hent
  exact ht (nextGated_entry_time p s x act hact hent)

theorem runBars_acts_cons (p : Params) (s : StratState) (x : BarInput)
    (rest : List BarInput) :
    (runBars p s (x :: rest)).2 =
      (nextGated p s x).2 ++ (runBars p (nextGated p s x).1 rest).2 := rfl

theorem runBars_entryCount_zero (p : Params) (l : List BarInput) : ∀ s : StratState,
    (∀ x ∈ l, x.bar.time ≠ first_bar_close) → entryCount (runBars p s l).2 = 0 := by
  induction l with
  | nil => intro s _; rfl
  | cons x rest ih =>
    intro s hl
    rw [runBars_acts_cons, entryCount_append]
    rw [entryCount_zero_of_time p s x (hl x (List.mem_cons_self x rest))]
    rw [ih _ (fun y hy => hl y (List.mem_cons_of_mem x hy))]

theorem runBars_entryCount_le_one (p : Params) (l : List BarInput) : ∀ s : StratState,
    List.Pairwise (fun x y => x.bar.time < y.bar.time) l →
    entryCount (runBars p s l).2 ≤ 1 := by
  induction l with
  | nil => intro s _; simp [runBars, entryCount]
  | cons x rest ih =>
    intro s hsorted
    rw [runBars_acts_cons, entryCount_append]
    rcases List.pairwise_cons.mp hsorted with ⟨hx, hrest⟩
    by_cases ht : x.bar.time = first_bar_close
    · have hzero : entryCount (runBars p (nextGated p s x).1 rest).2 = 0 := by
        apply runBars_entryCount_zero
        intro y hy hEq
        have hlt := hx y hy
        rw [ht, hEq] at hlt
        exact lt_irrefl _ hlt
      have hone : entryCount (nextGated p s x).2 ≤ 1 :=
        le_trans (entryCount_le_len _) (nextGated_acts_len p s x)
      omega
    · rw [entryCount_zero_of_time p s x ht]
      simpa using ih (nextGated p s x).1 hrest

/-! ## The claims -/

/-- Claim C1: once the Risk Governor signals a daily-loss breach during day
`d`, trading is halted for the remainder of day `d`: every later bar of day
`d` leaves the state unchanged and emits no order action (no entry, no
reversal, no further breach evaluation); a halted flag is only cleared by a
day-boundary reset; and at most one halt transition occurs per trading
day. -/
theorem halt_sticky_until_next_day :
    (∀ (p : Params) (s : StratState) (l : List BarInput) (d : ℕ),
       s.trading_halted = true → s.current_day = some d →
       (∀ x ∈ l, x.bar.day = d) → runBars p s l = (s, []))
    ∧ (∀ (p : Params) (s : StratState) (x : BarInput),
       s.trading_halted = true → s.current_day = some x.bar.day →
       nextGated p s x = (s, []))
    ∧ (∀ (p : Params) (s : StratState) (b : Bar) (pc a v : ℚ),
       s.trading_halted = true → (next p s b pc a v).1.trading_halted = false →
       s.current_day ≠ some b.day)
    ∧ (∀ (p : Params) (s : StratState) (l : List BarInput) (d : ℕ),
       s.current_day = some d → (∀ x ∈ l, x.bar.day = d) →
       haltTransitions p s l ≤ 1) :=
  ⟨fun p s l d hh hd hl => runBars_halted p s l d hh hd hl,
   fun p s x hh hd => nextGated_halted p s x hd hh,
   fun p s b pc a v hh hres => next_halt_clear p s b pc a v hh hres,
   fun p s l d hd hl => haltTransitions_le_one p s l d hd hl⟩

/-- Witness for the halt-stickiness claim at concrete inputs: the halted
day-1 state is untouched by a later day-1 bar (both as a run and as a single
step), the halt is only cleared when the bar belongs to a different day, and
the remaining day-1 run performs at most one halt transition. -/
theorem halt_sticky_until_next_day_witness :
    runBars defaultParams sHalted [xMid] = (sHalted, [])
    ∧ nextGated defaultParams sHalted xMid = (sHalted, [])
    ∧ sHalted.current_day ≠ some barDay2.day
    ∧ haltTransitions defaultParams sHalted [xMid] ≤ 1 :=
  ⟨halt_sticky_until_next_day.1 defaultParams sHalted [xMid] 1 rfl rfl (by decide),
   halt_sticky_until_next_day.2.1 defaultParams sHalted xMid rfl rfl,
   halt_sticky_until_next_day.2.2.1 defaultParams sHalted barDay2 5000 2 900 rfl
     (by norm_num [next, dayStep, start_of_day_reset, check_daily_loss_limit, closeAll,
        sHalted, sFlat, defaultParams, barDay2, barMid, market_close, first_bar_close]),
   halt_sticky_until_next_day.2.2.2 defaultParams sHalted [xMid] 1 rfl (by decide)⟩

/-- Claim C2 counterexample: invoking the reversal operation in the Flat
state raises no error at all — it completes normally, returning the state
unchanged and emitting no order action; i.e. it is exactly the silent no-op
the claim says must not happen (the source's `else: pass` branch). -/
theorem reverse_position_flat_silent_cex :
    reverse_position defaultParams sFlat barMid = (sFlat, []) := rfl

/-- Claim C2 (amended): a reversal invoked while the position state is Flat
completes as a silent no-op — it issues no orders, emits no events, raises
no error, and leaves the state unchanged. -/
theorem reverse_position_flat_noop (p : Params) (s : StratState) (b : Bar)
    (h : s.position_size = 0) : reverse_position p s b = (s, []) := by
  unfold reverse_position
  rw [if_neg (by omega : ¬ 0 < s.position_size),
    if_neg (by omega : ¬ s.position_size < 0)]

/-- Witness: the amended C2 no-op theorem applied at a concrete flat state
and bar. -/
theorem reverse_position_flat_noop_witness :
    sFlat.position_size = 0 ∧ reverse_position defaultParams sFlat bar575 = (sFlat, []) :=
  ⟨rfl, reverse_position_flat_noop defaultParams sFlat bar575 rfl⟩

/-- Claim C3: the simulation produces one trial per index draw; every
possible draw of `n = len(pnl_sequence)` indices (sampling with
replacement) yields a drawn sequence of exactly `n` values, all taken from
the PnL sequence; the trial's equity path has length `n + 1`, starts at the
starting equity, and its final value is the starting equity plus the sum of
the drawn values. -/
theorem bootstrap_trial_shape :
    (∀ (st : ℚ) (pnlSeq : List ℚ) (draws : List (List ℕ)),
       (mcSimulate st pnlSeq draws).length = draws.length)
    ∧ (∀ (st : ℚ) (pnlSeq : List ℚ) (draws : List (List ℕ)) (t : TrialAcc),
       t ∈ mcSimulate st pnlSeq draws → ∃ sel ∈ draws, t = mcTrial st (drawSeq pnlSeq sel))
    ∧ (∀ (st : ℚ) (pnlSeq : List ℚ) (sel : List ℕ),
       sel.length = pnlSeq.length → (∀ i ∈ sel, i < pnlSeq.length) →
       (drawSeq pnlSeq sel).length = pnlSeq.length
       ∧ (∀ x ∈ drawSeq pnlSeq sel, x ∈ pnlSeq)
       ∧ (mcTrial st (drawSeq pnlSeq sel)).equity.length = pnlSeq.length + 1
       ∧ (mcTrial st (drawSeq pnlSeq sel)).equity.head? = some st
       ∧ lastOr (mcTrial st (drawSeq pnlSeq sel)).equity 0
           = st + (drawSeq pnlSeq sel).sum) := by
  refine ⟨?_, ?_, ?_⟩
  · intro st pnlSeq draws
    simp [mcSimulate]
  · intro st pnlSeq draws t ht
    rcases List.mem_map.mp ht with ⟨sel, hsel, rfl⟩
    exact ⟨sel, hsel, rfl⟩
  · intro st pnlSeq sel hlen hbound
    have hdlen : (drawSeq pnlSeq sel).length = pnlSeq.length := by
      simp [drawSeq, hlen]
    refine ⟨hdlen, drawSeq_mem pnlSeq sel hbound, ?_, ?_, ?_⟩
    · rw [mcTrial_eq]
      simp [sumsFrom_length, hdlen]
    · rw [mcTrial_eq]
      rfl
    · rw [mcTrial_eq]
      exact lastOr_cons_sumsFrom (drawSeq pnlSeq sel) st

/-- Witness for the trial-shape claim: PnL sequence `[10, -20]` with the
concrete index draw `[1, 0]` (i.e. drawn values `[-20, 10]`). -/
theorem bootstrap_trial_shape_witness :
    (drawSeq [10, -20] [1, 0]).length = ([10, -20] : List ℚ).length
    ∧ (∀ x ∈ drawSeq [10, -20] [1, 0], x ∈ ([10, -20] : List ℚ))
    ∧ (mcTrial 5000 (drawSeq [10, -20] [1, 0])).equity.length = ([10, -20] : List ℚ).length + 1
    ∧ (mcTrial 5000 (drawSeq [10, -20] [1, 0])).equity.head? = some 5000
    ∧ lastOr (mcTrial 5000 (drawSeq [10, -20] [1, 0])).equity 0
        = 5000 + (drawSeq [10, -20] [1, 0]).sum :=
  bootstrap_trial_shape.2.2 5000 [10, -20] [1, 0] (by decide) (by decide)

/-- Claim C4: a trial's reported maximum drawdown equals the spec's
`max((running_peak − equity)/running_peak)` over the whole equity path, is
always non-negative, and is zero whenever the equity path is monotonically
non-decreasing — in particular every trial drawn from the daily sequence
`[100, 100, 100]` with starting equity 5000 has zero max drawdown. -/
theorem max_drawdown_correct :
    (∀ (st : ℚ) (seq : List ℚ),
       (mcTrial st seq).drawdown = specMaxDrawdown (mcTrial st seq).equity)
    ∧ (∀ (st : ℚ) (seq : List ℚ), 0 ≤ (mcTrial st seq).drawdown)
    ∧ (∀ (st : ℚ) (seq : List ℚ),
       List.Chain' (fun x y => x ≤ y) (mcTrial st seq).equity →
       (mcTrial st seq).drawdown = 0)
    ∧ (∀ sel : List ℕ, (∀ i ∈ sel, i < 3) →
       (mcTrial 5000 (drawSeq [100, 100, 100] sel)).drawdown = 0) := by
  have hdd : ∀ (st : ℚ) (seq : List ℚ), (∀ x ∈ seq, 0 ≤ x) →
      (mcTrial st seq).drawdown = 0 := by
    intro st seq hpos
    rw [mcTrial_eq]
    refine foldl_max_of_le _ 0 ?_
    intro y hy
    rw [ddSteps_all_zero seq st st le_rfl hpos y hy]
  refine ⟨?_, ?_, ?_, ?_⟩
  · intro st seq
    rw [mcTrial_eq]
    exact (specMaxDrawdown_path st seq).symm
  · intro st seq
    rw [mcTrial_eq]
    exact le_foldl_max _ 0
  · intro st seq hch
    rw [mcTrial_eq] at hch
    exact hdd st seq (chain_sumsFrom_nonneg seq st hch)
  · intro sel hsel
    apply hdd
    intro x hx
    have hmem := drawSeq_mem [100, 100, 100] sel hsel x hx
    simp at hmem
    rw [hmem]
    norm_num

/-- Witness for the drawdown claim: the monotone trial on `[100, 100, 100]`
and the concrete draw `[0, 1, 2]` from that sequence both report zero
drawdown. -/
theorem max_drawdown_correct_witness :
    List.Chain' (fun x y => x ≤ y) (mcTrial 5000 [100, 100, 100]).equity
    ∧ (mcTrial 5000 [100, 100, 100]).drawdown = 0
    ∧ (mcTrial 5000 (drawSeq [100, 100, 100] [0, 1, 2])).drawdown = 0 := by
  have hch : List.Chain' (fun x y : ℚ => x ≤ y) (mcTrial 5000 [100, 100, 100]).equity := by
    rw [mcTrial_eq]
    norm_num [sumsFrom]
  exact ⟨hch, max_drawdown_correct.2.2.1 5000 [100, 100, 100] hch,
    max_drawdown_correct.2.2.2 [0, 1, 2] (by decide)⟩

/-- Claim C8 counterexample: with a zero-length daily PnL sequence the
simulation does not fail fast — it silently produces all 1000 trials, each
with the degenerate single-point equity path `[5000]`, rather than raising
any error. -/
theorem mc_empty_sequence_cex :
    mcSimulate 5000 ([] : List ℚ) (List.replicate 1000 []) =
      List.replicate 1000 { equity := [5000], peak := 5000, drawdown := 0 }
    ∧ (mcSimulate 5000 ([] : List ℚ) (List.replicate 1000 [])).length = 1000 := by
  constructor
  · rw [mcSimulate, List.map_replicate]
    rfl
  · rw [mcSimulate, List.length_map, List.length_replicate]

/-- Claim C8 (amended): the Monte Carlo script performs no input
validation: with a zero-length daily PnL sequence every one of the
`num_trials` trials is silently produced with the single-point equity path
`[starting_equity]` (final equity = starting equity, zero drawdown), and a
non-positive trial count silently yields an empty trial list; no error is
raised in either case. -/
theorem mc_degenerate_silent :
    (∀ (n : ℕ) (st : ℚ),
       mcSimulate st [] (List.replicate n []) =
         List.replicate n { equity := [st], peak := st, drawdown := 0 })
    ∧ (∀ (st : ℚ) (pnlSeq : List ℚ), mcSimulate st pnlSeq [] = []) := by
  constructor
  · intro n st
    rw [mcSimulate, List.map_replicate]
    rfl
  · intro st pnlSeq
    rfl

/-- Claim C9: on any bar whose ATR or volume moving average is not yet
available (indicator warm-up) the strategy body is not invoked: the state is
unchanged and no order action is emitted — in particular a flat state stays
flat and no entry occurs; the machine never trades on undefined indicator
values. -/
theorem warmup_no_trade :
    (∀ (p : Params) (s : StratState) (x : BarInput),
       x.atr = none ∨ x.vol_ma = none → nextGated p s x = (s, []))
    ∧ (∀ (p : Params) (s : StratState) (x : BarInput),
       x.atr = none ∨ x.vol_ma = none → s.position_size = 0 →
       (nextGated p s x).1.position_size = 0 ∧ entryCount (nextGated p s x).2 = 0) := by
  have h1 : ∀ (p : Params) (s : StratState) (x : BarInput),
      x.atr = none ∨ x.vol_ma = none → nextGated p s x = (s, []) := by
    intro p s x hx
    unfold nextGated
    rcases hatr : x.atr with _ | a
    · rfl
    · rcases hvm : x.vol_ma with _ | v
      · rfl
      · rcases hx with hx | hx
        · rw [hatr] at hx; cases hx
        · rw [hvm] at hx; cases hx
  refine ⟨h1, ?_⟩
  intro p s x hx hflat
  rw [h1 p s x hx]
  exact ⟨hflat, rfl⟩

/-- Witness for the warm-up claim: the flat state is untouched by a bar
whose ATR is still undefined. -/
theorem warmup_no_trade_witness :
    nextGated defaultParams sFlat xWarm = (sFlat, [])
    ∧ ((nextGated defaultParams sFlat xWarm).1.position_size = 0
       ∧ entryCount (nextGated defaultParams sFlat xWarm).2 = 0) :=
  ⟨warmup_no_trade.1 defaultParams sFlat xWarm (Or.inl rfl),
   warmup_no_trade.2 defaultParams sFlat xWarm (Or.inl rfl) rfl⟩

/-- Claim C10: the aggregated daily PnL for day `d` equals the sum of
`pnlcomm` over exactly the closed trades whose close day is `d`; day entries
are created on first occurrence, so the key order of the aggregation (and
hence the order of `pnl_sequence`) is the first-seen chronological day
order. -/
theorem daily_pnl_aggregation :
    (∀ (trades : List ClosedTrade) (d : ℕ),
       valueOf (daily_pnls trades) d =
         ((trades.filter (fun t => t.closeDay = d)).map ClosedTrade.pnlcomm).sum)
    ∧ (∀ trades : List ClosedTrade,
       (daily_pnls trades).map Prod.fst = newDays [] (trades.map ClosedTrade.closeDay))
    ∧ (∀ trades : List ClosedTrade,
       pnl_sequence trades = (daily_pnls trades).map Prod.snd) := by
  refine ⟨?_, ?_, ?_⟩
  · intro trades d
    have h := foldl_valueOf d trades []
    simpa [daily_pnls, valueOf] using h
  · intro trades
    have h := foldl_keys trades []
    simpa [daily_pnls] using h
  · intro trades
    rfl

/-- Claim C5: an entry action can only be emitted on the unique entry-bar
phase (close time 09:35), only when the (day-adjusted) state is un-halted
and flat with no daily-loss breach on that bar; a flat state can only
become non-flat on that bar; on the entry bar the strategy goes Long with
`extreme = bar.high` exactly when close > open and otherwise Short with
`extreme = bar.low`; and over any chronologically ordered bar list at most
one entry fires. -/
theorem entry_once_at_entry_bar :
    (∀ (p : Params) (s0 : StratState) (b : Bar) (pc a v : ℚ),
       ∀ act ∈ (next p s0 b pc a v).2, isEntry act = true →
         b.time = first_bar_close ∧ (dayStep s0 b).trading_halted = false ∧
         (dayStep s0 b).position_size = 0 ∧
         check_daily_loss_limit p (dayStep s0 b) b = none)
    ∧ (∀ (p : Params) (s0 : StratState) (b : Bar) (pc a v : ℚ),
       (dayStep s0 b).position_size = 0 → (next p s0 b pc a v).1.position_size ≠ 0 →
       b.time = first_bar_close)
    ∧ (∀ (p : Params) (s : StratState) (b : Bar) (pc a v : ℚ),
       s.current_day = some b.day → s.trading_halted = false →
       check_daily_loss_limit p s b = none → b.time = first_bar_close →
       s.position_size = 0 →
       (b.dataclose > b.dataopen →
          next p s b pc a v =
            ({ s with
                position_size := p.fixed_size, position_price := b.dataclose,
                highest_high := b.datahigh }, [Act.enterLong]))
       ∧ (¬ b.dataclose > b.dataopen →
          next p s b pc a v =
            ({ s with
                position_size := -p.fixed_size, position_price := b.dataclose,
                lowest_low := b.datalow }, [Act.enterShort])))
    ∧ (∀ (p : Params) (s : StratState) (l : List BarInput),
       List.Pairwise (fun x y => x.bar.time < y.bar.time) l →
       entryCount (runBars p s l).2 ≤ 1) := by
  refine ⟨next_entry_conditions, next_flat_entry_time, ?_, ?_⟩
  · intro p s b pc a v hday hh hC ht hflat
    constructor
    · intro hdir
      rw [next_entry_branch p s b pc a v hday hh hC ht hflat]
      unfold enterFirstBar
      rw [if_pos hdir]
    · intro hdir
      rw [next_entry_branch p s b pc a v hday hh hC ht hflat]
      unfold enterFirstBar
      rw [if_neg hdir]
  · exact fun p s l hs => runBars_entryCount_le_one p l s hs

/-- Witness for the entry claim: on the concrete day-1 entry bar (close 5005
above open 5000) the flat state enters Long with the extreme initialised to
the bar's high. -/
theorem entry_once_at_entry_bar_witness :
    next defaultParams sFlat bar575 5000 2 900 =
      ({ sFlat with
          position_size := defaultParams.fixed_size,
          position_price := bar575.dataclose, highest_high := bar575.datahigh },
        [Act.enterLong]) :=
  (entry_once_at_entry_bar.2.2.1 defaultParams sFlat bar575 5000 2 900
    rfl rfl
    (by norm_num [check_daily_loss_limit, closeAll, sFlat, defaultParams, bar575])
    rfl rfl).1 (by norm_num [bar575])

/-- Claim C6: while in position the extreme is updated first (`max` with the
bar high when Long, `min` with the bar low when Short) and the trailing
stop is then evaluated against the updated extreme: when Long and
close < extreme − ATR×trail_multiplier the lot is closed (realizing its
PnL), an opposite lot of the same fixed size is opened, and the short
extreme is reset to the bar's low — symmetrically for Short; when no
reversal condition fires the bar leaves only the updated extreme behind. -/
theorem trailing_stop_reversal :
    (∀ (p : Params) (s : StratState) (b : Bar) (pc a v : ℚ),
       s.current_day = some b.day → s.trading_halted = false →
       check_daily_loss_limit p s b = none →
       b.time < market_close → b.time ≠ first_bar_close →
       0 < s.position_size →
       b.dataclose < max s.highest_high b.datahigh - a * p.trail_atr →
       next p s b pc a v =
         ({ s with
             daily_realized_pnl := s.daily_realized_pnl
               + (b.dataclose - s.position_price) * p.multiplier * (s.position_size : ℚ),
             position_size := -p.fixed_size, position_price := b.dataclose,
             highest_high := max s.highest_high b.datahigh,
             lowest_low := b.datalow }, [Act.reverseToShort]))
    ∧ (∀ (p : Params) (s : StratState) (b : Bar) (pc a v : ℚ),
       s.current_day = some b.day → s.trading_halted = false →
       check_daily_loss_limit p s b = none →
       b.time < market_close → b.time ≠ first_bar_close →
       s.position_size < 0 →
       b.dataclose > min s.lowest_low b.datalow + a * p.trail_atr →
       next p s b pc a v =
         ({ s with
             daily_realized_pnl := s.daily_realized_pnl
               + (b.dataclose - s.position_price) * p.multiplier * (s.position_size : ℚ),
             position_size := p.fixed_size, position_price := b.dataclose,
             lowest_low := min s.lowest_low b.datalow,
             highest_high := b.datahigh }, [Act.reverseToLong]))
    ∧ (∀ (p : Params) (s : StratState) (b : Bar) (pc a v : ℚ),
       s.current_day = some b.day → s.trading_halted = false →
       check_daily_loss_limit p s b = none →
       b.time < market_close → b.time ≠ first_bar_close →
       0 < s.position_size →
       ¬ b.dataclose < max s.highest_high b.datahigh - a * p.trail_atr →
       ¬(b.datavolume > v * p.vol_multiplier ∧ b.dataclose < pc) →
       next p s b pc a v = ({ s with highest_high := max s.highest_high b.datahigh }, []))
    ∧ (∀ (p : Params) (s : StratState) (b : Bar) (pc a v : ℚ),
       s.current_day = some b.day → s.trading_halted = false →
       check_daily_loss_limit p s b = none →
       b.time < market_close → b.time ≠ first_bar_close →
       s.position_size < 0 →
       ¬ b.dataclose > min s.lowest_low b.datalow + a * p.trail_atr →
       ¬(b.datavolume > v * p.vol_multiplier ∧ b.dataclose > pc) →
       next p s b pc a v = ({ s with lowest_low := min s.lowest_low b.datalow }, [])) := by
  refine ⟨?_, ?_, ?_, ?_⟩
  · intro p s b pc a v hday hh hC hlt hne hpos htr
    rw [next_manage p s b pc a v hday hh hC hlt hne (by omega),
      manage_long_trail p s b pc a v hpos htr,
      reverse_position_long p { s with highest_high := max s.highest_high b.datahigh } b hpos]
  · intro p s b pc a v hday hh hC hlt hne hpos htr
    rw [next_manage p s b pc a v hday hh hC hlt hne (by omega),
      manage_short_trail p s b pc a v hpos htr,
      reverse_position_short p { s with lowest_low := min s.lowest_low b.datalow } b hpos]
  · intro p s b pc a v hday hh hC hlt hne hpos htr hnv
    rw [next_manage p s b pc a v hday hh hC hlt hne (by omega),
      manage_long_none p s b pc a v hpos htr hnv]
  · intro p s b pc a v hday hh hC hlt hne hpos htr hnv
    rw [next_manage p s b pc a v hday hh hC hlt hne (by omega),
      manage_short_none p s b pc a v hpos htr hnv]

/-- Witness for the trailing-stop claim: from the concrete long state, the
bar closing at 4981 (below `max(5010, 5002) − 2×3 = 5004`) reverses to
Short, realizes the lot's PnL and resets the extreme to the bar's low. -/
theorem trailing_stop_reversal_witness :
    next defaultParams sLong barMid 5000 2 900 =
      ({ sLong with
          daily_realized_pnl := sLong.daily_realized_pnl
            + (barMid.dataclose - sLong.position_price) * defaultParams.multiplier
              * (sLong.position_size : ℚ),
          position_size := -defaultParams.fixed_size, position_price := barMid.dataclose,
          highest_high := max sLong.highest_high barMid.datahigh,
          lowest_low := barMid.datalow }, [Act.reverseToShort]) :=
  trailing_stop_reversal.1 defaultParams sLong barMid 5000 2 900 rfl rfl
    (by norm_num [check_daily_loss_limit, closeAll, sLong, sFlat, defaultParams, barMid])
    (by decide) (by decide) (by decide)
    (by norm_num [sLong, sFlat, barMid, defaultParams])

/-- Claim C7: at most one reversal action is emitted per bar; the trailing
stop is evaluated first — when it fires, the step's result does not depend
on the volume inputs at all; and only when it did not fire is the
volume-spike rule consulted, reversing exactly when volume exceeds the
moving average times the multiplier and the close moved against the held
direction versus the previous close. -/
theorem one_reversal_per_bar :
    (∀ (p : Params) (s0 : StratState) (b : Bar) (pc a v : ℚ),
       reversalCount (next p s0 b pc a v).2 ≤ 1)
    ∧ (∀ (p : Params) (s : StratState) (b : Bar) (pc a v pc' v' : ℚ),
       s.current_day = some b.day → s.trading_halted = false →
       check_daily_loss_limit p s b = none →
       b.time < market_close → b.time ≠ first_bar_close →
       ((0 < s.position_size
           ∧ b.dataclose < max s.highest_high b.datahigh - a * p.trail_atr)
         ∨ (s.position_size < 0
           ∧ b.dataclose > min s.lowest_low b.datalow + a * p.trail_atr)) →
       next p s b pc a v = next p s b pc' a v')
    ∧ (∀ (p : Params) (s : StratState) (b : Bar) (pc a v : ℚ),
       s.current_day = some b.day → s.trading_halted = false →
       check_daily_loss_limit p s b = none →
       b.time < market_close → b.time ≠ first_bar_close →
       0 < s.position_size →
       ¬ b.dataclose < max s.highest_high b.datahigh - a * p.trail_atr →
       (b.datavolume > v * p.vol_multiplier ∧ b.dataclose < pc →
          next p s b pc a v =
            reverse_position p { s with highest_high := max s.highest_high b.datahigh } b)
       ∧ (¬(b.datavolume > v * p.vol_multiplier ∧ b.dataclose < pc) →
          next p s b pc a v = ({ s with highest_high := max s.highest_high b.datahigh }, [])))
    ∧ (∀ (p : Params) (s : StratState) (b : Bar) (pc a v : ℚ),
       s.current_day = some b.day → s.trading_halted = false →
       check_daily_loss_limit p s b = none →
       b.time < market_close → b.time ≠ first_bar_close →
       s.position_size < 0 →
       ¬ b.dataclose > min s.lowest_low b.datalow + a * p.trail_atr →
       (b.datavolume > v * p.vol_multiplier ∧ b.dataclose > pc →
          next p s b pc a v =
            reverse_position p { s with lowest_low := min s.lowest_low b.datalow } b)
       ∧ (¬(b.datavolume > v * p.vol_multiplier ∧ b.dataclose > pc) →
          next p s b pc a v = ({ s with lowest_low := min s.lowest_low b.datalow }, []))) := by
  refine ⟨?_, ?_, ?_, ?_⟩
  · intro p s0 b pc a v
    exact le_trans (List.length_filter_le _ _) (next_acts_len p s0 b pc a v)
  · intro p s b pc a v pc' v' hday hh hC hlt hne hfire
    rcases hfire with ⟨hpos, htr⟩ | ⟨hpos, htr⟩
    · rw [next_manage p s b pc a v hday hh hC hlt hne (by omega),
        next_manage p s b pc' a v' hday hh hC hlt hne (by omega),
        manage_long_trail p s b pc a v hpos htr,
        manage_long_trail p s b pc' a v' hpos htr]
    · rw [next_manage p s b pc a v hday hh hC hlt hne (by omega),
        next_manage p s b pc' a v' hday hh hC hlt hne (by omega),
        manage_short_trail p s b pc a v hpos htr,
        manage_short_trail p s b pc' a v' hpos htr]
  · intro p s b pc a v hday hh hC hlt hne hpos htr
    constructor
    · intro hvol
      rw [next_manage p s b pc a v hday hh hC hlt hne (by omega),
        manage_long_vol p s b pc a v hpos htr hvol.1 hvol.2]
    · intro hnv
      rw [next_manage p s b pc a v hday hh hC hlt hne (by omega),
        manage_long_none p s b pc a v hpos htr hnv]
  · intro p s b pc a v hday hh hC hlt hne hpos htr
    constructor
    · intro hvol
      rw [next_manage p s b pc a v hday hh hC hlt hne (by omega),
        manage_short_vol p s b pc a v hpos htr hvol.1 hvol.2]
    · intro hnv
      rw [next_manage p s b pc a v hday hh hC hlt hne (by omega),
        manage_short_none p s b pc a v hpos htr hnv]

/-- Witness for the one-reversal-per-bar claim: on the concrete volume-spike
bar (volume 4000 against a 900×3 threshold, close 5007 below the previous
close 5008, trailing stop not triggered) the long state reverses via the
volume rule. -/
theorem one_reversal_per_bar_witness :
    next defaultParams sLong barVol 5008 2 900 =
      reverse_position defaultParams
        { sLong with highest_high := max sLong.highest_high barVol.datahigh } barVol :=
  (one_reversal_per_bar.2.2.1 defaultParams sLong barVol 5008 2 900 rfl rfl
    (by norm_num [check_daily_loss_limit, closeAll, sLong, sFlat, defaultParams, barVol])
    (by decide) (by decide) (by decide)
    (by norm_num [sLong, sFlat, barVol, defaultParams])).1
    ⟨by norm_num [barVol, defaultParams], by norm_num [barVol]⟩
